import Mathlib

/-!
Verification of the TaskFlow task-processing engine (src/js/task-processor.js).

The engine is a single-threaded, synchronous store of tasks.  We embed it
shallowly: the JS task object becomes a Lean structure, the mutable static
state of `TaskManager` becomes an explicit `State` value threaded through the
operations, `Date.now()` becomes an explicit `now : Nat` argument, and the
in-place mutations performed through references returned by `Array.find`
become functional updates of the first matching list element (`updateFirst`).
JSON strings are modelled at the level of parsed JSON trees (`Json`):
`JSON.parse` of a string either fails (modelled by `none`) or yields a tree,
and `JSON.parse (JSON.stringify v)) = v` for the plain
number/string/boolean/null data the engine serializes.
-/

namespace TaskFlow

/-- A task record, exactly the object literal built by
`TaskManager.createTask`: fields `id`, `text`, `completed`, `parentId`,
`indentLevel`, `createdAt`, `updatedAt`.  (The source stores no `dueDate`
field; see the C5 theorem.) -/
structure Task where
  id : Nat
  text : String
  completed : Bool
  parentId : Option Nat
  indentLevel : Nat
  createdAt : Nat
  updatedAt : Nat
deriving Repr, DecidableEq

/-- The static mutable state of `TaskManager`: the ordered task collection,
the id counter, and the search cache (a JS `Map`, i.e. an insertion-ordered
association list, oldest entry first).  The stats cache (`statsCache`,
`statsCacheTime`, a 100ms wall-clock TTL) is referenced by no claim and is
omitted from the embedding. -/
structure State where
  tasks : List Task
  currentId : Nat
  searchCache : List (String × List Task)
deriving Repr, DecidableEq

/-- The initial state: `tasks = []`, `currentId = 1`, empty caches. -/
def s0 : State := { tasks := [], currentId := 1, searchCache := [] }

/-- `invalidateCache`: clears the search cache (and the omitted stats
cache). -/
def invalidateCache (s : State) : State := { s with searchCache := [] }

/-- JS `String.prototype.trim`: strip leading and trailing whitespace.
(Defined over the character list so that it reduces inside the kernel;
`String.trim` itself is defined by position arithmetic.) -/
def jsTrim (s : String) : String :=
  String.mk
    (((s.data.dropWhile Char.isWhitespace).reverse.dropWhile
        Char.isWhitespace).reverse)

/-- JS `String.prototype.toLowerCase`, modelled characterwise by
`Char.toLower`. -/
def jsToLower (s : String) : String := String.mk (s.data.map Char.toLower)

/-- Functional form of an in-place mutation through the reference returned by
`find`/`findIndex`: replace the first element satisfying `p` by its image
under `f`, leaving everything else in place. -/
def updateFirst (p : α → Bool) (f : α → α) : List α → List α
  | [] => []
  | x :: xs => if p x then f x :: xs else x :: updateFirst p f xs

/-- `TaskManager.createTask(text, parentId = null, indentLevel = 0)`:
rejects blank text, otherwise appends
`{id: currentId++, text: text.trim(), completed: false, parentId,
indentLevel, createdAt: now, updatedAt: now}` and invalidates the caches.
Note the source accepts no `dueDate` argument and stores no `dueDate`
field. -/
def createTask (now : Nat) (text : String) (parentId : Option Nat)
    (indentLevel : Nat) (s : State) : Option Task × State :=
  if (jsTrim text).isEmpty then (none, s)
  else
    let task : Task :=
      { id := s.currentId, text := jsTrim text, completed := false,
        parentId := parentId, indentLevel := indentLevel,
        createdAt := now, updatedAt := now }
    (some task,
      invalidateCache { s with tasks := s.tasks ++ [task],
                               currentId := s.currentId + 1 })

/-- `TaskManager.updateTask(id, text)`. -/
def updateTask (now id : Nat) (text : String) (s : State) :
    Option Task × State :=
  match s.tasks.find? (fun t => t.id == id) with
  | none => (none, s)
  | some task =>
    let task' : Task := { task with text := jsTrim text, updatedAt := now }
    let ts' := updateFirst (fun t => t.id == id)
      (fun t => { t with text := jsTrim text, updatedAt := now }) s.tasks
    (some task', invalidateCache { s with tasks := ts' })

/-- `TaskManager.getSubtaskIds(parentId)`: direct children first, then each
child's recursively collected subtree, in order.  The JS recursion carries no
fuel and diverges on a cyclic `parentId` graph; the embedding bounds the
recursion depth explicitly, and the engine invokes it with fuel
`tasks.length + 1`, which is exhaustive whenever the parent graph is acyclic
(proved below via `mem_getSubtaskIds_iff`). -/
def getSubtaskIds (ts : List Task) : Nat → Nat → List Nat
  | 0, _ => []
  | fuel + 1, parentId =>
    let subtasks := ts.filter (fun t => t.parentId == some parentId)
    subtasks.map Task.id ++
      (subtasks.map (fun st => getSubtaskIds ts fuel st.id)).flatten

/-- JS truthiness of a `parentId` value: `null`/`undefined` and `0` are
falsy. -/
def truthyId : Option Nat → Bool
  | none => false
  | some n => n != 0

/-- Phase 0 of `toggleComplete`: flip the found task's `completed` flag and
refresh its `updatedAt`. -/
def flipPhase (now id : Nat) (newState : Bool) (ts : List Task) : List Task :=
  updateFirst (fun t => t.id == id)
    (fun t => { t with completed := newState, updatedAt := now }) ts

/-- Phase 1 of `toggleComplete` (task became complete): force every collected
subtask id complete, skipping already-complete ones. -/
def cascadeDownPhase (now id : Nat) (ts : List Task) : List Task :=
  (getSubtaskIds ts (ts.length + 1) id).foldl
    (fun acc sid =>
      updateFirst (fun u => u.id == sid)
        (fun u => if u.completed then u
                  else { u with completed := true, updatedAt := now }) acc)
    ts

/-- Phase 2 of `toggleComplete` (task became incomplete): uncheck the
immediate parent if it was complete. -/
def uncheckParentPhase (now : Nat) (pid? : Option Nat) (ts : List Task) :
    List Task :=
  match pid? with
  | none => ts
  | some pid =>
    if pid != 0 then
      updateFirst (fun u => u.id == pid)
        (fun u => if u.completed then { u with completed := false,
                                               updatedAt := now }
                  else u) ts
    else ts

/-- Phase 3 of `toggleComplete` (task became complete): if the parent exists,
is incomplete, and every task sharing the toggled task's `parentId` is now
complete, force the parent complete.  This runs once, for the immediate
parent only. -/
def autoCompleteParentPhase (now : Nat) (pid? : Option Nat) (ts : List Task) :
    List Task :=
  match pid? with
  | none => ts
  | some pid =>
    if pid != 0 then
      match ts.find? (fun u => u.id == pid) with
      | none => ts
      | some parent =>
        if parent.completed then ts
        else if (ts.filter (fun u => u.parentId == some pid)).all
                  (fun u => u.completed) then
          updateFirst (fun u => u.id == pid)
            (fun u => { u with completed := true, updatedAt := now }) ts
        else ts
    else ts

/-- `TaskManager.toggleComplete(id)`: flip the found task, then run the three
cascade phases in source order, invalidate the caches, and return the (now
mutated) task. -/
def toggleComplete (now id : Nat) (s : State) : Option Task × State :=
  match s.tasks.find? (fun t => t.id == id) with
  | none => (none, s)
  | some task =>
    let newState := !task.completed
    let ts1 := flipPhase now id newState s.tasks
    let ts2 := if newState then cascadeDownPhase now id ts1 else ts1
    let ts3 := if !newState then uncheckParentPhase now task.parentId ts2
               else ts2
    let ts4 := if newState then autoCompleteParentPhase now task.parentId ts3
               else ts3
    (ts4.find? (fun t => t.id == id), invalidateCache { s with tasks := ts4 })

/-- The task collection after `toggleComplete now id s`. -/
def afterToggle (now id : Nat) (s : State) : List Task :=
  ((toggleComplete now id s).2).tasks

/-- `TaskManager.deleteTask(id)`: remove the task at its index, then filter
out its recursively collected subtask ids. -/
def deleteTask (id : Nat) (s : State) : Option Task × State :=
  match s.tasks.findIdx? (fun t => t.id == id) with
  | none => (none, s)
  | some i =>
    match s.tasks[i]? with
    | none => (none, s)
    | some deleted =>
      let ts1 := s.tasks.take i ++ s.tasks.drop (i + 1)
      let subIds := getSubtaskIds ts1 (ts1.length + 1) id
      (some deleted,
        invalidateCache
          { s with tasks := ts1.filter (fun t => !(subIds.contains t.id)) })

/-- `TaskManager.indentTask(id)`: fails on a missing or first task and on a
mover already at level 3; otherwise sets the mover's level to the positional
predecessor's level plus one and reparents onto the predecessor.  The guard
inspects the mover's own level, not the predecessor's. -/
def indentTask (now id : Nat) (s : State) : Option Task × State :=
  match s.tasks.findIdx? (fun t => t.id == id) with
  | none => (none, s)
  | some i =>
    if i == 0 then (none, s)
    else
      match s.tasks[i]?, s.tasks[i - 1]? with
      | some task, some previousTask =>
        if task.indentLevel ≥ 3 then (none, s)
        else
          let task' : Task :=
            { task with indentLevel := previousTask.indentLevel + 1,
                        parentId := some previousTask.id, updatedAt := now }
          (some task', invalidateCache { s with tasks := s.tasks.set i task' })
      | _, _ => (none, s)

/-- Backward scan of `outdentTask`: walk indices `upto - 1, ..., 0` and
return the id of the first task whose `indentLevel` equals `lvl`. -/
def scanBack (ts : List Task) : Nat → Nat → Option Nat
  | 0, _ => none
  | j + 1, lvl =>
    match ts[j]? with
    | some u => if u.indentLevel == lvl then some u.id else scanBack ts j lvl
    | none => scanBack ts j lvl

/-- `TaskManager.outdentTask(id)`: fails at level 0; otherwise decrements the
level, clears `parentId` when the new level is 0, and otherwise adopts the
nearest preceding task at `newLevel - 1` (keeping the stale `parentId` when
none is found). -/
def outdentTask (now id : Nat) (s : State) : Option Task × State :=
  match s.tasks.find? (fun t => t.id == id) with
  | none => (none, s)
  | some task =>
    if task.indentLevel == 0 then (none, s)
    else
      let newLevel := max 0 (task.indentLevel - 1)
      let newParent : Option Nat :=
        if newLevel == 0 then none
        else
          match s.tasks.findIdx? (fun t => t.id == id) with
          | none => task.parentId
          | some ti =>
            match scanBack s.tasks ti (newLevel - 1) with
            | some pid => some pid
            | none => task.parentId
      let task' : Task :=
        { task with indentLevel := newLevel, parentId := newParent,
                    updatedAt := now }
      let ts' := updateFirst (fun t => t.id == id) (fun _ => task') s.tasks
      (some task', invalidateCache { s with tasks := ts' })

/-- `TaskManager.clearCompleted()`. -/
def clearCompleted (s : State) : Nat × State :=
  ((s.tasks.filter (fun t => t.completed)).length,
    invalidateCache { s with tasks := s.tasks.filter (fun t => !t.completed) })

/-- JS `String.prototype.includes`: substring containment. -/
def jsIncludes (s sub : String) : Bool := decide (sub.data <:+: s.data)

/-- Semantics of the fuzzy regex `c1.*c2.*...*cn` (flag `i`) built by
`searchTasks` from a metacharacter-free search term: the term's characters
must occur in the text in order, case-insensitively, with anything in
between — a case-insensitive subsequence test. -/
def isSubseqCI : List Char → List Char → Bool
  | [], _ => true
  | _ :: _, [] => false
  | c :: qs, d :: ds =>
    if c.toLower == d.toLower then isSubseqCI qs ds else isSubseqCI (c :: qs) ds

/-- Characters that are special in an ECMAScript regular expression pattern.
`searchTasks` joins the raw term characters with `.*` without escaping them,
so a term containing such a character changes the pattern's syntax or
meaning. -/
def regexSpecial (c : Char) : Bool :=
  ['(', ')', '[', ']', '{', '}', '*', '+', '?', '^', '$', '|', '\\', '.', '/'].contains c

/-- Modelled from the spec: the `RegExp` constructor is a collaborator
outside the engine's source.  We model its acceptance of the generated
pattern conservatively: construction succeeds exactly when the term is free
of regex metacharacters (then each term character is a literal and the
pattern means the subsequence test `isSubseqCI`), and fails — the JS
`SyntaxError` — otherwise.  This is exact on metacharacter-free terms and on
terms with an unmatched `(` such as the one claim C9 exhibits; a few
metacharacter terms (for example `a.b`) do compile in JS, but no claim's
statement depends on those. -/
def fuzzyPatternOk (term : String) : Bool := term.data.all (fun c => !regexSpecial c)

/-- Lookup in the search cache (JS `Map.has`/`Map.get`). -/
def lookupEntry (cache : List (String × List Task)) (key : String) :
    Option (List Task) :=
  match cache with
  | [] => none
  | (k, v) :: rest => if k == key then some v else lookupEntry rest key

/-- The match predicate of `searchTasks`: exact case-insensitive substring
containment first, else the fuzzy test. -/
def searchMatch (term : String) (t : Task) : Bool :=
  jsIncludes (jsToLower t.text) term || isSubseqCI term.data t.text.data

/-- `TaskManager.searchTasks(query)`: a blank query clears the cache and
returns the whole collection; otherwise the lower-cased trimmed term plus the
collection size form the cache key; on a hit the cached list is returned; on
a miss the fuzzy regex is built (which can throw, modelled by a `none`
result with the state unchanged), the collection filtered, and the result
cached — evicting the oldest entry first when the cache's size exceeds
100. -/
def searchTasks (s : State) (query : String) : Option (List Task) × State :=
  if (jsTrim query).isEmpty then (some s.tasks, { s with searchCache := [] })
  else
    let searchTerm := jsTrim (jsToLower query)
    let cacheKey := searchTerm ++ "-" ++ toString s.tasks.length
    match lookupEntry s.searchCache cacheKey with
    | some results => (some results, s)
    | none =>
      if fuzzyPatternOk searchTerm then
        let results := s.tasks.filter (searchMatch searchTerm)
        let trimmedCache :=
          if s.searchCache.length > 100 then s.searchCache.tail
          else s.searchCache
        (some results,
          { s with searchCache := trimmedCache ++ [(cacheKey, results)] })
      else (none, s)

/-- Fold a list of search queries through the engine, keeping the state
reached (a thrown search leaves the state unchanged). -/
def searchSeq (qs : List String) (s : State) : State :=
  qs.foldl (fun st q => (searchTasks st q).2) s

/-- `TaskManager.reorderTasks(fromIndex, toIndex)`.  The JS array may come to
hold `undefined` (no element removal happens when `fromIndex` is out of
range, yet `undefined` is inserted), so the collection is modelled as a list
of `Option Task` with `none` standing for `undefined`.  `splice(from, 1)`
removes at most one element; `splice(to, 0, x)` inserts at
`min to length`. -/
def reorderTasks (ts : List (Option Task)) (fromIndex toIndex : Nat) :
    Bool × List (Option Task) :=
  if fromIndex == toIndex then (false, ts)
  else
    let removed := (ts.drop fromIndex).take 1
    let rest := ts.take fromIndex ++ ts.drop (fromIndex + 1)
    let movedTask : Option Task := removed.head?.join
    (true, rest.take toIndex ++ [movedTask] ++ rest.drop toIndex)

/-- Parsed JSON trees.  `JSON.parse` of the strings the engine reads either
throws (modelled by feeding `none` to the operation) or yields such a
tree. -/
inductive Json where
  | null : Json
  | bool : Bool → Json
  | num : Nat → Json
  | str : String → Json
  | arr : List Json → Json
  | obj : List (String × Json) → Json
deriving Repr

/-- Field access on a parsed JSON object (`data.tasks` etc.): first binding
wins. -/
def jlookup (fields : List (String × Json)) (key : String) : Option Json :=
  match fields with
  | [] => none
  | (k, v) :: rest => if k == key then some v else jlookup rest key

/-- JS truthiness of a parsed JSON value. -/
def jsTruthy : Json → Bool
  | Json.null => false
  | Json.bool b => b
  | Json.num n => n != 0
  | Json.str s => !s.isEmpty
  | Json.arr _ => true
  | Json.obj _ => true

/-- `JSON.stringify` of one task object: its fields in insertion order. -/
def taskToJson (t : Task) : Json :=
  Json.obj
    [("id", Json.num t.id), ("text", Json.str t.text),
     ("completed", Json.bool t.completed),
     ("parentId", match t.parentId with
                  | none => Json.null
                  | some p => Json.num p),
     ("indentLevel", Json.num t.indentLevel),
     ("createdAt", Json.num t.createdAt),
     ("updatedAt", Json.num t.updatedAt)]

/-- The typed reading of a parsed task object.  The JS import/load code
adopts the parsed objects verbatim; on the well-formed task records the
engine itself writes (the case every claim concerns) this reading is exact,
and on malformed fields it substitutes defaults where JS would keep
`undefined`. -/
def jsonToTask (j : Json) : Task :=
  match j with
  | Json.obj fields =>
    { id := (match jlookup fields "id" with
             | some (Json.num n) => n
             | _ => 0),
      text := (match jlookup fields "text" with
               | some (Json.str s) => s
               | _ => ""),
      completed := (match jlookup fields "completed" with
                    | some (Json.bool b) => b
                    | _ => false),
      parentId := (match jlookup fields "parentId" with
                   | some (Json.num n) => some n
                   | _ => none),
      indentLevel := (match jlookup fields "indentLevel" with
                      | some (Json.num n) => n
                      | _ => 0),
      createdAt := (match jlookup fields "createdAt" with
                    | some (Json.num n) => n
                    | _ => 0),
      updatedAt := (match jlookup fields "updatedAt" with
                    | some (Json.num n) => n
                    | _ => 0) }
  | _ => { id := 0, text := "", completed := false, parentId := none,
           indentLevel := 0, createdAt := 0, updatedAt := 0 }

/-- `TaskManager.exportToJSON()`: the pretty-printed string
`{tasks, exportedAt, version}` — modelled as its parsed JSON tree
(pretty-printing does not change the tree). -/
def exportToJSON (s : State) (exportedAt : String) : Json :=
  Json.obj
    [("tasks", Json.arr (s.tasks.map taskToJson)),
     ("exportedAt", Json.str exportedAt),
     ("version", Json.str "1.0")]

/-- `TaskManager.importFromJSON(jsonString)`: a parse failure (`none`) is
caught and reported as `false` with the state untouched; so is a parsed
payload whose `tasks` member is missing or not an array (`data.tasks &&
Array.isArray(data.tasks)` — accessing `.tasks` on parsed `null` throws and
is caught).  On success the collection is replaced wholesale and the id
counter recomputed as `Math.max(...ids, 0) + 1`.  The caches are not
touched. -/
def importFromJSON (parsed : Option Json) (s : State) : Bool × State :=
  match parsed with
  | some (Json.obj fields) =>
    match jlookup fields "tasks" with
    | some (Json.arr l) =>
      let newTasks := l.map jsonToTask
      let maxId := (newTasks.map Task.id).foldl max 0
      (true, { s with tasks := newTasks, currentId := maxId + 1 })
    | _ => (false, s)
  | _ => (false, s)

/-- The per-task read of `loadTasks`:
`{...task, parentId: task.parentId || null, indentLevel: task.indentLevel || 0}`
(a `parentId` of `0` is falsy in JS and becomes `null`). -/
def loadTask (j : Json) : Task :=
  let t := jsonToTask j
  { t with parentId := match t.parentId with
                       | some 0 => none
                       | p => p }

/-- `TaskManager.loadTasks()`: `none` models both a missing stored record and
a `JSON.parse` throw (caught, `false`, no mutation).  On parsed `null`,
`data.tasks` throws (caught).  On a parsed object, `data.tasks || []` reads
the array (a truthy non-array makes the subsequent `.map` throw before any
assignment; a falsy value defaults to `[]`), and
`currentId = data.currentId || 1`.  A parsed primitive or array has
`data.tasks === undefined`, so the load "succeeds" with an empty collection. -/
def loadTasks (saved : Option Json) (s : State) : Bool × State :=
  match saved with
  | none => (false, s)
  | some Json.null => (false, s)
  | some (Json.obj fields) =>
    let newCurrentId : Nat :=
      match jlookup fields "currentId" with
      | some (Json.num n) => if n == 0 then 1 else n
      | _ => 1
    match jlookup fields "tasks" with
    | some (Json.arr l) =>
      (true, { s with tasks := l.map loadTask, currentId := newCurrentId })
    | some v =>
      if jsTruthy v then (false, s)
      else (true, { s with tasks := [], currentId := newCurrentId })
    | none => (true, { s with tasks := [], currentId := newCurrentId })
  | some _ => (true, { s with tasks := [], currentId := 1 })

/-- `hasTasksArray j`: the parsed import payload is an object carrying an
array under `tasks` — exactly the condition under which `importFromJSON`
replaces the collection. -/
def hasTasksArray : Json → Bool
  | Json.obj fields =>
    match jlookup fields "tasks" with
    | some (Json.arr _) => true
    | _ => false
  | _ => false

/-- One parent edge: `b` is the id of a task of `ts` whose `parentId` is
`a`. -/
def childStep (ts : List Task) (a b : Nat) : Prop :=
  ∃ c ∈ ts, c.id = b ∧ c.parentId = some a

/-- `b` is a descendant of `a` under the transitive closure of the
`parentId` relation of `ts`, at any depth. -/
def Desc (ts : List Task) (a b : Nat) : Prop :=
  Relation.TransGen (childStep ts) a b

/-- The claim C1 trace: from the empty store, create five tasks with default
arguments, then indent tasks 2, 3, 4 and 5 in order. -/
def c1State : State :=
  let s1 := (createTask 0 "a" none 0 s0).2
  let s2 := (createTask 0 "b" none 0 s1).2
  let s3 := (createTask 0 "c" none 0 s2).2
  let s4 := (createTask 0 "d" none 0 s3).2
  let s5 := (createTask 0 "e" none 0 s4).2
  let s6 := (indentTask 1 2 s5).2
  let s7 := (indentTask 2 3 s6).2
  let s8 := (indentTask 3 4 s7).2
  (indentTask 4 5 s8).2

/-- A four-level chain of incomplete tasks (1 ← 2 ← 3 ← 4 ← 5), deeper than
indent depth 3, used to witness the cascade claims. -/
def sChain : State :=
  { tasks :=
      [{ id := 1, text := "a", completed := false, parentId := none,
         indentLevel := 0, createdAt := 0, updatedAt := 0 },
       { id := 2, text := "b", completed := false, parentId := some 1,
         indentLevel := 1, createdAt := 0, updatedAt := 0 },
       { id := 3, text := "c", completed := false, parentId := some 2,
         indentLevel := 2, createdAt := 0, updatedAt := 0 },
       { id := 4, text := "d", completed := false, parentId := some 3,
         indentLevel := 3, createdAt := 0, updatedAt := 0 },
       { id := 5, text := "e", completed := false, parentId := some 4,
         indentLevel := 4, createdAt := 0, updatedAt := 0 }],
    currentId := 6, searchCache := [] }

/-- A three-level chain grandparent ← parent ← subtask, all incomplete, used
to witness the single-level cascade-up. -/
def sThree : State :=
  { tasks :=
      [{ id := 1, text := "g", completed := false, parentId := none,
         indentLevel := 0, createdAt := 0, updatedAt := 0 },
       { id := 2, text := "p", completed := false, parentId := some 1,
         indentLevel := 1, createdAt := 0, updatedAt := 0 },
       { id := 3, text := "s", completed := false, parentId := some 2,
         indentLevel := 2, createdAt := 0, updatedAt := 0 }],
    currentId := 4, searchCache := [] }

/-- A state whose single task's text contains the regex metacharacter `(`. -/
def sParen : State :=
  { tasks :=
      [{ id := 1, text := "(x)", completed := false, parentId := none,
         indentLevel := 0, createdAt := 0, updatedAt := 0 }],
    currentId := 2, searchCache := [] }

/-- A task used to witness the search superset property. -/
def tCall : Task :=
  { id := 1, text := "Call dentist", completed := false, parentId := none,
    indentLevel := 0, createdAt := 0, updatedAt := 0 }

/-- A state with one task, used to witness the search superset property. -/
def sCall : State := { tasks := [tCall], currentId := 2, searchCache := [] }

/-- A task whose text matches neither the substring nor the fuzzy test for
the query "call". -/
def tAaa : Task :=
  { id := 1, text := "aaa", completed := false, parentId := none,
    indentLevel := 0, createdAt := 0, updatedAt := 0 }

/-- A reachable state with a stale search-cache entry: searching "call"
over the one-task collection `[tAaa]` caches the empty result under the key
"call-1"; importing a one-task payload containing `tCall` then replaces the
collection — same size, so the same key — but keeps the cache, because
`importFromJSON` never invalidates it. -/
def sStale : State :=
  (importFromJSON
    (some (Json.obj [("tasks", Json.arr [taskToJson tCall])]))
    ((searchTasks { tasks := [tAaa], currentId := 2, searchCache := [] }
      "call").2)).2

/-- A state whose search cache already holds 101 entries (the steady-state
size the eviction rule produces). -/
def sBig : State :=
  { tasks := [], currentId := 1,
    searchCache := (List.range 101).map (fun i => (toString i ++ "-0", [])) }

/-- The 101 distinct queries "0", "1", ..., "100". -/
def queries101 : List String := (List.range 101).map toString

/-- The hierarchy-relevant projection of a task: its id and parent
reference.  `getSubtaskIds` depends on the collection only through this
projection. -/
def proj (t : Task) : Nat × Option Nat := (t.id, t.parentId)

/-- Force a task complete, refreshing `updatedAt` — the write the cascade
phases perform. -/
def markCompleted (now : Nat) (t : Task) : Task :=
  { t with completed := true, updatedAt := now }

/-- Pointwise form of the flip the toggle performs on the target id when the
task becomes complete. -/
def flipFun (now id : Nat) (u : Task) : Task :=
  if (u.id == id) = true then { u with completed := true, updatedAt := now }
  else u

/-- Pointwise form of the cascade-down write: force complete exactly the
tasks whose id is in the collected subtask-id list. -/
def markFun (now : Nat) (ids : List Nat) (u : Task) : Task :=
  if (ids.contains u.id && !u.completed) = true then markCompleted now u
  else u

-- ======================================================================
-- Theorems
-- ======================================================================

-- Basic facts about folded maxima, used for the id-counter recomputation.

lemma foldl_max_init (l : List Nat) (a : Nat) : a ≤ l.foldl max a := by
  induction l generalizing a with
  | nil => simp
  | cons x xs ih => exact le_trans (le_max_left a x) (ih (max a x))

lemma mem_le_foldl_max (l : List Nat) (x : Nat) (hx : x ∈ l) (a : Nat) :
    x ≤ l.foldl max a := by
  induction l generalizing a with
  | nil => cases hx
  | cons y ys ih =>
    rcases List.mem_cons.mp hx with h | h
    · subst h
      exact le_trans (le_max_right a x) (foldl_max_init ys (max a x))
    · exact ih h (max a y)

-- The typed reading inverts the serialization of a task record.

lemma jsonToTask_taskToJson (t : Task) : jsonToTask (taskToJson t) = t := by
  cases t with
  | mk id text completed parentId indentLevel createdAt updatedAt =>
    cases parentId <;> rfl

lemma map_jsonToTask_taskToJson (ts : List Task) :
    (ts.map taskToJson).map jsonToTask = ts := by
  rw [List.map_map]
  calc ts.map (jsonToTask ∘ taskToJson) = ts.map id :=
        List.map_congr_left (fun t _ => jsonToTask_taskToJson t)
    _ = ts := List.map_id ts

-- Generic facts about `updateFirst`: length preservation, and the
-- rewriting of a first-match update into a pointwise map when at most one
-- element matches.

lemma updateFirst_length (p : α → Bool) (f : α → α) (l : List α) :
    (updateFirst p f l).length = l.length := by
  induction l with
  | nil => rfl
  | cons x xs ih =>
    unfold updateFirst
    by_cases hx : p x = true
    · rw [if_pos hx]
      simp
    · rw [if_neg hx]
      simpa using ih

lemma countP_le_one_of_nodup (l : List Task) (v : Nat)
    (hnd : (l.map Task.id).Nodup) :
    l.countP (fun t => t.id == v) ≤ 1 := by
  induction l with
  | nil => simp
  | cons t ts ih =>
    rw [List.map_cons, List.nodup_cons] at hnd
    rw [List.countP_cons]
    by_cases hv : (t.id == v) = true
    · have hzero : ts.countP (fun u => u.id == v) = 0 := by
        rw [List.countP_eq_zero]
        intro u hu hud
        apply hnd.1
        rw [beq_iff_eq.mp hv, ← beq_iff_eq.mp hud]
        exact List.mem_map_of_mem Task.id hu
      rw [hzero, if_pos hv]
    · rw [if_neg hv]
      simpa using ih hnd.2

lemma updateFirst_eq_map (p : α → Bool) (f : α → α) (l : List α)
    (hcount : l.countP p ≤ 1) :
    updateFirst p f l = l.map (fun a => if p a then f a else a) := by
  induction l with
  | nil => rfl
  | cons x xs ih =>
    rw [List.countP_cons] at hcount
    unfold updateFirst
    by_cases hx : p x = true
    · rw [if_pos hx, List.map_cons, if_pos hx]
      have hzero : xs.countP p = 0 := by
        rw [if_pos hx] at hcount
        omega
      have hall := List.countP_eq_zero.mp hzero
      refine congrArg (f x :: ·) ?_
      have hpt : ∀ a ∈ xs, (if p a = true then f a else a) = id a :=
        fun a ha => by rw [if_neg (hall a ha)]; rfl
      exact ((List.map_congr_left hpt).trans (List.map_id xs)).symm
    · rw [if_neg hx, List.map_cons, if_neg hx]
      refine congrArg (x :: ·) ?_
      exact ih (by rw [if_neg hx] at hcount; omega)

-- The projection `proj` is preserved by the cascade writes, and determines
-- both the id list and the subtask collection.

lemma map_proj_map (l : List Task) (f : Task → Task)
    (hf : ∀ t, proj (f t) = proj t) :
    (l.map f).map proj = l.map proj := by
  rw [List.map_map]
  exact List.map_congr_left (fun t _ => hf t)

lemma map_id_of_map_proj (l l' : List Task) (h : l.map proj = l'.map proj) :
    l.map Task.id = l'.map Task.id := by
  have h2 := congrArg (List.map Prod.fst) h
  rw [List.map_map, List.map_map] at h2
  exact h2

lemma getSubtaskIds_congr (ts ts' : List Task)
    (h : ts.map proj = ts'.map proj) :
    ∀ fuel pid, getSubtaskIds ts fuel pid = getSubtaskIds ts' fuel pid := by
  intro fuel
  induction fuel with
  | zero => intro pid; rfl
  | succ n ih =>
    intro pid
    unfold getSubtaskIds
    dsimp only
    have hfil : (ts.filter (fun t => t.parentId == some pid)).map proj =
        (ts'.filter (fun t => t.parentId == some pid)).map proj := by
      have e : ∀ tsx : List Task,
          (tsx.filter (fun t => t.parentId == some pid)).map proj =
            (tsx.map proj).filter (fun pr => pr.2 == some pid) := by
        intro tsx
        rw [List.filter_map]
        exact congrArg (List.map proj) (List.filter_congr (fun a _ => rfl))
      rw [e ts, e ts', h]
    have hids : (ts.filter (fun t => t.parentId == some pid)).map Task.id =
        (ts'.filter (fun t => t.parentId == some pid)).map Task.id :=
      map_id_of_map_proj _ _ hfil
    rw [hids]
    refine congrArg (_ ++ ·) ?_
    have hrec : ∀ (tsx l : List Task),
        (l.map (fun st => getSubtaskIds tsx n st.id)) =
          (l.map Task.id).map (getSubtaskIds tsx n) := by
      intro tsx l
      rw [List.map_map]
      exact List.map_congr_left (fun x _ => rfl)
    rw [hrec ts, hrec ts', hids]
    refine congrArg List.flatten ?_
    exact List.map_congr_left (fun x _ => ih x)

-- Soundness and (rank-based) completeness of the recursive subtask-id
-- collection with respect to the transitive-closure descendant relation.

lemma desc_of_mem_getSubtaskIds (ts : List Task) :
    ∀ (fuel pid x : Nat), x ∈ getSubtaskIds ts fuel pid → Desc ts pid x := by
  intro fuel
  induction fuel with
  | zero => intro pid x hx; cases hx
  | succ n ih =>
    intro pid x hx
    unfold getSubtaskIds at hx
    dsimp only at hx
    rcases List.mem_append.mp hx with hx | hx
    · rcases List.mem_map.mp hx with ⟨c, hc, hcx⟩
      have hcf := List.mem_filter.mp hc
      exact Relation.TransGen.single ⟨c, hcf.1, hcx, beq_iff_eq.mp hcf.2⟩
    · rcases List.mem_flatten.mp hx with ⟨lsub, hlsub, hxl⟩
      rcases List.mem_map.mp hlsub with ⟨st, hst, rfl⟩
      have hstf := List.mem_filter.mp hst
      exact Relation.TransGen.head ⟨st, hstf.1, rfl, beq_iff_eq.mp hstf.2⟩
        (ih st.id x hxl)

lemma desc_rank_lt (ts : List Task) (m : Nat → Nat)
    (hm : ∀ c ∈ ts, ∀ q, c.parentId = some q → m q < m c.id)
    {a b : Nat} (h : Desc ts a b) : m a < m b := by
  induction h with
  | single hstep =>
    rcases hstep with ⟨c, hc, rfl, hp⟩
    exact hm c hc a hp
  | tail hab hbc ih =>
    rcases hbc with ⟨c, hc, rfl, hp⟩
    exact lt_trans ih (hm c hc _ hp)

lemma desc_endpoint_mem (ts : List Task) {a b : Nat} (h : Desc ts a b) :
    ∃ c ∈ ts, c.id = b := by
  induction h with
  | single hstep =>
    rcases hstep with ⟨c, hc, rfl, _⟩
    exact ⟨c, hc, rfl⟩
  | tail hab hbc ih =>
    rcases hbc with ⟨c, hc, rfl, _⟩
    exact ⟨c, hc, rfl⟩

lemma mem_getSubtaskIds_of_desc (ts : List Task) (m : Nat → Nat)
    (hm : ∀ c ∈ ts, ∀ q, c.parentId = some q → m q < m c.id)
    {pid x : Nat} (h : Desc ts pid x) :
    ∀ fuel, m x - m pid ≤ fuel → 1 ≤ fuel → x ∈ getSubtaskIds ts fuel pid := by
  induction h using Relation.TransGen.head_induction_on with
  | base hstep =>
    intro fuel hfuel hfuel1
    rcases fuel with _ | n
    · omega
    · rcases hstep with ⟨c, hc, hcx, hcp⟩
      unfold getSubtaskIds
      dsimp only
      apply List.mem_append.mpr
      left
      apply List.mem_map.mpr
      exact ⟨c, List.mem_filter.mpr ⟨hc, by simp [hcp]⟩, hcx⟩
  | ih hstep hdesc ihc =>
    intro fuel hfuel hfuel1
    rcases hstep with ⟨tc, htc, htcid, htcp⟩
    rename_i a c
    have hac : m a < m c := by
      rw [← htcid]
      exact hm tc htc a htcp
    have hcx : m c < m _ := desc_rank_lt ts m hm hdesc
    rcases fuel with _ | n
    · omega
    · unfold getSubtaskIds
      dsimp only
      apply List.mem_append.mpr
      right
      apply List.mem_flatten.mpr
      refine ⟨getSubtaskIds ts n c, ?_, ihc n (by omega) (by omega)⟩
      apply List.mem_map.mpr
      refine ⟨tc, List.mem_filter.mpr ⟨htc, by simp [htcp]⟩, by rw [htcid]⟩

lemma mem_getSubtaskIds_iff (ts : List Task) (m : Nat → Nat)
    (hm : ∀ c ∈ ts, ∀ q, c.parentId = some q → m q < m c.id)
    (hb : ∀ c ∈ ts, m c.id ≤ ts.length) (pid x : Nat) :
    x ∈ getSubtaskIds ts (ts.length + 1) pid ↔ Desc ts pid x := by
  constructor
  · exact desc_of_mem_getSubtaskIds ts _ pid x
  · intro h
    rcases desc_endpoint_mem ts h with ⟨c, hc, rfl⟩
    exact mem_getSubtaskIds_of_desc ts m hm h (ts.length + 1)
      (by have := hb c hc; omega) (by omega)

-- `find?` on a collection with distinct ids locates exactly the member.

lemma find?_eq_some_of_nodup_mem (l : List Task) (t : Task)
    (hnd : (l.map Task.id).Nodup) (ht : t ∈ l) :
    l.find? (fun u => u.id == t.id) = some t := by
  induction l with
  | nil => cases ht
  | cons a as ih =>
    rw [List.map_cons, List.nodup_cons] at hnd
    rcases List.mem_cons.mp ht with rfl | hmem
    · rw [List.find?_cons_of_pos _ (by simp)]
    · by_cases ha : (a.id == t.id) = true
      · exact absurd
          (by rw [beq_iff_eq.mp ha]; exact List.mem_map_of_mem Task.id hmem)
          hnd.1
      · rw [List.find?_cons_of_neg _ (by simp [ha])]
        exact ih hnd.2 hmem

lemma find?_exists_of_mem_ids (l : List Task) (pid : Nat)
    (h : pid ∈ l.map Task.id) :
    ∃ x, l.find? (fun u => u.id == pid) = some x ∧ x.id = pid ∧ x ∈ l := by
  induction l with
  | nil => simp at h
  | cons a as ih =>
    by_cases ha : (a.id == pid) = true
    · exact ⟨a, by rw [List.find?_cons_of_pos _ (by simpa using ha)],
        beq_iff_eq.mp ha, List.mem_cons_self a as⟩
    · rw [List.map_cons] at h
      rcases List.mem_cons.mp h with rfl | hm
      · simp at ha
      · rcases ih hm with ⟨x, hx1, hx2, hx3⟩
        exact ⟨x, by rw [List.find?_cons_of_neg _ (by simp [ha])]; exact hx1,
          hx2, List.mem_cons_of_mem a hx3⟩

-- The cascade fold sets `completed` exactly on the listed ids.

lemma cascadeFold_eq_map (now : Nat) (ids : List Nat) (l : List Task)
    (hnd : (l.map Task.id).Nodup) :
    ids.foldl (fun acc sid =>
      updateFirst (fun u => u.id == sid)
        (fun u => if u.completed then u
                  else { u with completed := true, updatedAt := now }) acc) l =
    l.map (fun u => if ids.contains u.id && !u.completed
                    then markCompleted now u else u) := by
  induction ids generalizing l with
  | nil =>
    rw [List.foldl_nil]
    exact ((List.map_congr_left (fun t _ => rfl)).trans (List.map_id l)).symm
  | cons sid rest ih =>
    rw [List.foldl_cons,
      updateFirst_eq_map _ _ _ (countP_le_one_of_nodup l sid hnd)]
    have hproj : ((l.map (fun a => if (a.id == sid) = true
        then (if a.completed then a
              else { a with completed := true, updatedAt := now }) else a)).map
          proj) = l.map proj := by
      apply map_proj_map
      intro u
      by_cases h1 : (u.id == sid) = true
      · by_cases h2 : u.completed = true
        · rw [if_pos h1, if_pos h2]
        · rw [if_pos h1, if_neg h2]
          rfl
      · rw [if_neg h1]
    have hnd' := hnd
    rw [← map_id_of_map_proj _ _ hproj] at hnd'
    rw [ih _ hnd', List.map_map]
    apply List.map_congr_left
    intro u _
    dsimp only [Function.comp]
    cases h1 : (u.id == sid) with
    | true =>
      cases h2 : u.completed with
      | true => simp [h1, h2, List.contains_cons]
      | false =>
        simp only [h1, h2, List.contains_cons, if_pos, if_true, if_false]
        simp [markCompleted]
    | false =>
      cases h2 : u.completed with
      | true => simp [h1, h2, List.contains_cons]
      | false =>
        have hne : u.id ≠ sid := by
          intro hcontra
          rw [hcontra] at h1
          simp at h1
        simp [h1, h2, List.contains_cons, hne]

-- Pointwise facts about the flip and mark writes.

lemma flipFun_id (now id : Nat) (u : Task) : (flipFun now id u).id = u.id := by
  unfold flipFun
  by_cases h : (u.id == id) = true
  · rw [if_pos h]
  · rw [if_neg h]

lemma flipFun_proj (now id : Nat) : ∀ u : Task,
    proj (flipFun now id u) = proj u := by
  intro u
  unfold flipFun
  by_cases h : (u.id == id) = true
  · rw [if_pos h]
    rfl
  · rw [if_neg h]

lemma flipFun_completed (now id : Nat) (u : Task) :
    (flipFun now id u).completed = (u.completed || (u.id == id)) := by
  unfold flipFun
  by_cases h : (u.id == id) = true
  · rw [if_pos h, h]
    simp
  · rw [if_neg h]
    rw [Bool.eq_false_iff.mpr h]
    simp

lemma markFun_id (now : Nat) (ids : List Nat) (u : Task) :
    (markFun now ids u).id = u.id := by
  unfold markFun
  by_cases h : ((ids.contains u.id && !u.completed) = true)
  · rw [if_pos h]
    rfl
  · rw [if_neg h]

lemma markFun_proj (now : Nat) (ids : List Nat) : ∀ u : Task,
    proj (markFun now ids u) = proj u := by
  intro u
  unfold markFun
  by_cases h : ((ids.contains u.id && !u.completed) = true)
  · rw [if_pos h]
    rfl
  · rw [if_neg h]

lemma markFun_completed (now : Nat) (ids : List Nat) (u : Task) :
    (markFun now ids u).completed = (u.completed || ids.contains u.id) := by
  unfold markFun
  cases hc : u.completed with
  | true =>
    rw [if_neg (by simp [hc])]
    simp [hc]
  | false =>
    cases hm : ids.contains u.id with
    | true =>
      rw [if_pos (by simp [hc, hm])]
      rfl
    | false =>
      rw [if_neg (by simp [hc, hm])]
      simp [hc]

-- The first two toggle phases in pointwise map form.

lemma flipPhase_eq_map (now id : Nat) (l : List Task)
    (hnd : (l.map Task.id).Nodup) :
    flipPhase now id true l = l.map (flipFun now id) := by
  unfold flipPhase
  exact updateFirst_eq_map _ _ _ (countP_le_one_of_nodup l id hnd)

lemma cascadeDownPhase_eq_map (now id : Nat) (l : List Task)
    (hnd : (l.map Task.id).Nodup) :
    cascadeDownPhase now id l =
      l.map (markFun now (getSubtaskIds l (l.length + 1) id)) := by
  unfold cascadeDownPhase
  exact cascadeFold_eq_map now _ l hnd

-- With distinct ids, two members with the same id coincide.

lemma eq_of_mem_of_id_eq (l : List Task) (hnd : (l.map Task.id).Nodup)
    {a b : Task} (ha : a ∈ l) (hb : b ∈ l) (hid : a.id = b.id) : a = b := by
  induction l with
  | nil => cases ha
  | cons x xs ih =>
    rw [List.map_cons, List.nodup_cons] at hnd
    rcases List.mem_cons.mp ha with rfl | ha'
    · rcases List.mem_cons.mp hb with rfl | hb'
      · rfl
      · exact absurd (hid ▸ List.mem_map_of_mem Task.id hb') hnd.1
    · rcases List.mem_cons.mp hb with rfl | hb'
      · exact absurd (hid ▸ List.mem_map_of_mem Task.id ha')
          (by rw [hid] at *; exact hnd.1)
      · exact ih hnd.2 ha' hb'

-- `toggleComplete` on an incomplete existing task, written as the
-- composition of its three phases.

lemma afterToggle_incomplete (now : Nat) (s : State) (t : Task)
    (hnd : (s.tasks.map Task.id).Nodup) (ht : t ∈ s.tasks)
    (hinc : t.completed = false) :
    afterToggle now t.id s =
      autoCompleteParentPhase now t.parentId
        (cascadeDownPhase now t.id (flipPhase now t.id true s.tasks)) := by
  unfold afterToggle toggleComplete
  rw [find?_eq_some_of_nodup_mem s.tasks t hnd ht]
  dsimp only
  rw [hinc]
  rfl

-- The auto-complete-parent phase either leaves the collection unchanged or
-- force-completes the first task carrying the toggled task's parent id.

lemma acp_cases (now : Nat) (pid? : Option Nat) (l : List Task) :
    autoCompleteParentPhase now pid? l = l ∨
    ∃ pid, pid? = some pid ∧
      autoCompleteParentPhase now pid? l =
        updateFirst (fun u => u.id == pid)
          (fun u => { u with completed := true, updatedAt := now }) l := by
  unfold autoCompleteParentPhase
  split
  · exact Or.inl rfl
  · next pid =>
    split
    · split
      · exact Or.inl rfl
      · split
        · exact Or.inl rfl
        · split
          · exact Or.inr ⟨pid, rfl, rfl⟩
          · exact Or.inl rfl
    · exact Or.inl rfl

-- Pointwise description of the auto-complete-parent phase: every entry is
-- either unchanged or — when it is the toggled task's parent — forced
-- complete.

lemma acp_get (now : Nat) (pid? : Option Nat) (l : List Task)
    (hnd : (l.map Task.id).Nodup) :
    (autoCompleteParentPhase now pid? l).length = l.length ∧
    ∀ (i : Nat) (u' : Task), (autoCompleteParentPhase now pid? l)[i]? = some u' →
      ∃ u, l[i]? = some u ∧
        (u' = u ∨ (u' = { u with completed := true, updatedAt := now } ∧
                   pid? = some u.id)) := by
  rcases acp_cases now pid? l with hcase | ⟨pid, hpid, hcase⟩
  · rw [hcase]
    exact ⟨rfl, fun i u' h => ⟨u', h, Or.inl rfl⟩⟩
  · rw [hcase, updateFirst_eq_map _ _ _ (countP_le_one_of_nodup l pid hnd)]
    constructor
    · exact List.length_map l _
    · intro i u' h
      rw [List.getElem?_map] at h
      rcases Option.map_eq_some'.mp h with ⟨u, hu, hfu⟩
      refine ⟨u, hu, ?_⟩
      by_cases hid : (u.id == pid) = true
      · rw [if_pos hid] at hfu
        exact Or.inr ⟨hfu.symm, by rw [hpid, beq_iff_eq.mp hid]⟩
      · rw [if_neg hid] at hfu
        exact Or.inl hfu.symm

-- When the toggled task's parent exists and every task carrying its
-- `parentId` is complete, the phase leaves that parent complete.

lemma acp_completes_parent (now pid : Nat) (l : List Task)
    (hnd : (l.map Task.id).Nodup) (hpid0 : pid ≠ 0)
    (hmem : pid ∈ l.map Task.id)
    (hall : ∀ u ∈ l, u.parentId = some pid → u.completed = true) :
    ∀ (i : Nat) (u' : Task),
      (autoCompleteParentPhase now (some pid) l)[i]? = some u' →
      u'.id = pid → u'.completed = true := by
  rcases find?_exists_of_mem_ids l pid hmem with ⟨p2, hfind, hp2id, hp2mem⟩
  intro i u' hout hid
  simp only [autoCompleteParentPhase] at hout
  rw [if_pos (by simp [hpid0]), hfind] at hout
  dsimp only at hout
  by_cases hpc : p2.completed = true
  · rw [if_pos hpc] at hout
    have hu'mem : u' ∈ l := List.getElem?_mem hout
    have heq : u' = p2 :=
      eq_of_mem_of_id_eq l hnd hu'mem hp2mem (by rw [hid, hp2id])
    rw [heq]
    exact hpc
  · rw [if_neg hpc] at hout
    have hallb : ((l.filter (fun u => u.parentId == some pid)).all
        (fun u => u.completed)) = true := by
      rw [List.all_eq_true]
      intro u hu
      have huf := List.mem_filter.mp hu
      exact hall u huf.1 (beq_iff_eq.mp huf.2)
    rw [if_pos hallb,
      updateFirst_eq_map _ _ _ (countP_le_one_of_nodup l pid hnd),
      List.getElem?_map] at hout
    rcases Option.map_eq_some'.mp hout with ⟨w, hw, hfw⟩
    by_cases hwid : (w.id == pid) = true
    · rw [if_pos hwid] at hfw
      rw [← hfw]
    · rw [if_neg hwid] at hfw
      rw [← hfw] at hid
      exact absurd (beq_iff_eq.mpr hid) hwid

lemma contains_iff_mem (ids : List Nat) (x : Nat) :
    ids.contains x = true ↔ x ∈ ids := by
  simp

/-- C2: toggling an incomplete task `t` complete marks complete exactly `t`
itself plus every descendant of `t` under the transitive closure of the
`parentId` relation, at any depth; every other task keeps its `completed`
flag, except possibly `t`'s own parent (the single-level cascade-up stated
separately).  The hypotheses restrict to collections with distinct ids and
an acyclic parent graph — witnessed by a rank `m` increasing along parent
edges and bounded by the collection size — which every state the engine
builds satisfies. -/
theorem c2_toggle_cascades_to_all_descendants (now : Nat) (s : State)
    (t : Task) (m : Nat → Nat)
    (hnd : (s.tasks.map Task.id).Nodup)
    (hm : ∀ c ∈ s.tasks, ∀ q, c.parentId = some q → m q < m c.id)
    (hb : ∀ c ∈ s.tasks, m c.id ≤ s.tasks.length)
    (ht : t ∈ s.tasks) (hinc : t.completed = false) :
    (afterToggle now t.id s).length = s.tasks.length ∧
    ∀ (i : Nat) (u u' : Task), s.tasks[i]? = some u →
      (afterToggle now t.id s)[i]? = some u' →
      u'.id = u.id ∧
      ((u.id = t.id ∨ Desc s.tasks t.id u.id) → u'.completed = true) ∧
      (u.id ≠ t.id → ¬ Desc s.tasks t.id u.id → t.parentId ≠ some u.id →
        u'.completed = u.completed) := by
  have hflip := flipPhase_eq_map now t.id s.tasks hnd
  have hproj1 : ((s.tasks.map (flipFun now t.id)).map proj) =
      s.tasks.map proj :=
    map_proj_map _ _ (flipFun_proj now t.id)
  have hnd1 : ((s.tasks.map (flipFun now t.id)).map Task.id).Nodup := by
    rw [map_id_of_map_proj _ _ hproj1]
    exact hnd
  have hlen1 : (s.tasks.map (flipFun now t.id)).length = s.tasks.length :=
    List.length_map _ _
  have hsubeq : getSubtaskIds (s.tasks.map (flipFun now t.id))
      ((s.tasks.map (flipFun now t.id)).length + 1) t.id =
      getSubtaskIds s.tasks (s.tasks.length + 1) t.id := by
    rw [hlen1]
    exact getSubtaskIds_congr _ _ hproj1 _ _
  have hcasc : cascadeDownPhase now t.id (s.tasks.map (flipFun now t.id)) =
      (s.tasks.map (flipFun now t.id)).map
        (markFun now (getSubtaskIds s.tasks (s.tasks.length + 1) t.id)) := by
    rw [cascadeDownPhase_eq_map now t.id _ hnd1, hsubeq]
  have hafter : afterToggle now t.id s =
      autoCompleteParentPhase now t.parentId
        ((s.tasks.map (flipFun now t.id)).map
          (markFun now (getSubtaskIds s.tasks (s.tasks.length + 1) t.id))) := by
    rw [afterToggle_incomplete now s t hnd ht hinc, hflip, hcasc]
  have hproj2 : (((s.tasks.map (flipFun now t.id)).map
      (markFun now (getSubtaskIds s.tasks (s.tasks.length + 1) t.id))).map
        proj) = s.tasks.map proj :=
    (map_proj_map _ _ (markFun_proj now _)).trans hproj1
  have hnd2 : ((((s.tasks.map (flipFun now t.id)).map
      (markFun now (getSubtaskIds s.tasks (s.tasks.length + 1) t.id))).map
        Task.id)).Nodup := by
    rw [map_id_of_map_proj _ _ hproj2]
    exact hnd
  have hacp := acp_get now t.parentId _ hnd2
  constructor
  · rw [hafter]
    exact hacp.1.trans (by rw [List.length_map, List.length_map])
  · intro i u u' hu hu'
    rw [hafter] at hu'
    rcases hacp.2 i u' hu' with ⟨w, hw, hrel⟩
    rw [List.getElem?_map, List.getElem?_map, hu, Option.map_some',
      Option.map_some'] at hw
    injection hw with hwval
    have hwid : w.id = u.id := by
      rw [← hwval, markFun_id, flipFun_id]
    have hwcomp : w.completed =
        (u.completed || (u.id == t.id) ||
          (getSubtaskIds s.tasks (s.tasks.length + 1) t.id).contains u.id) := by
      rw [← hwval, markFun_completed, flipFun_completed, flipFun_id]
    refine ⟨?_, ?_, ?_⟩
    · rcases hrel with rfl | ⟨rfl, hpid⟩
      · exact hwid
      · exact hwid
    · intro hcase
      have hwc : w.completed = true := by
        rcases hcase with hcase | hcase
        · rw [hwcomp, beq_iff_eq.mpr hcase]
          simp
        · have hcont : (getSubtaskIds s.tasks
              (s.tasks.length + 1) t.id).contains u.id = true :=
            (contains_iff_mem _ _).mpr
              ((mem_getSubtaskIds_iff s.tasks m hm hb t.id u.id).mpr hcase)
          rw [hwcomp, hcont]
          simp
      rcases hrel with rfl | ⟨rfl, hpid⟩
      · exact hwc
      · rfl
    · intro hne hndesc hnp
      have h1 : (u.id == t.id) = false := beq_eq_false_iff_ne.mpr hne
      have h2 : (getSubtaskIds s.tasks
          (s.tasks.length + 1) t.id).contains u.id = false := by
        rw [← Bool.not_eq_true]
        intro hcc
        exact hndesc (desc_of_mem_getSubtaskIds s.tasks _ t.id u.id
          ((contains_iff_mem _ _).mp hcc))
      have hwc : w.completed = u.completed := by
        rw [hwcomp, h1, h2]
        simp
      rcases hrel with rfl | ⟨rfl, hpid⟩
      · exact hwc
      · exact absurd (by rw [← hwid]; exact hpid) hnp

set_option maxRecDepth 10000 in
/-- C2 witness: toggling the root (id 1) of the concrete four-level chain
`sChain` marks its depth-4 descendant (id 5 — deeper than the indent bound
of 3) complete. -/
theorem c2_cascade_witness :
    (afterToggle 9 1 sChain)[4]?.map Task.completed = some true := by
  have hdesc : Desc sChain.tasks 1 5 := by
    have s12 : childStep sChain.tasks 1 2 :=
      ⟨{ id := 2, text := "b", completed := false, parentId := some 1,
         indentLevel := 1, createdAt := 0, updatedAt := 0 },
       by decide, rfl, rfl⟩
    have s23 : childStep sChain.tasks 2 3 :=
      ⟨{ id := 3, text := "c", completed := false, parentId := some 2,
         indentLevel := 2, createdAt := 0, updatedAt := 0 },
       by decide, rfl, rfl⟩
    have s34 : childStep sChain.tasks 3 4 :=
      ⟨{ id := 4, text := "d", completed := false, parentId := some 3,
         indentLevel := 3, createdAt := 0, updatedAt := 0 },
       by decide, rfl, rfl⟩
    have s45 : childStep sChain.tasks 4 5 :=
      ⟨{ id := 5, text := "e", completed := false, parentId := some 4,
         indentLevel := 4, createdAt := 0, updatedAt := 0 },
       by decide, rfl, rfl⟩
    exact Relation.TransGen.head s12 (Relation.TransGen.head s23
      (Relation.TransGen.head s34 (Relation.TransGen.single s45)))
  have h := c2_toggle_cascades_to_all_descendants 9 sChain
    { id := 1, text := "a", completed := false, parentId := none,
      indentLevel := 0, createdAt := 0, updatedAt := 0 }
    (fun n => n) (by decide)
    (by
      intro c hc
      simp only [sChain, List.mem_cons, List.not_mem_nil, or_false] at hc
      rcases hc with rfl | rfl | rfl | rfl | rfl <;> intro q hq
      · exact absurd hq (by simp)
      · injection hq with hq2
        subst hq2
        decide
      · injection hq with hq2
        subst hq2
        decide
      · injection hq with hq2
        subst hq2
        decide
      · injection hq with hq2
        subst hq2
        decide)
    (by decide) (by decide) rfl
  have hres := (h.2 4
    { id := 5, text := "e", completed := false, parentId := some 4,
      indentLevel := 4, createdAt := 0, updatedAt := 0 }
    { id := 5, text := "e", completed := true, parentId := some 4,
      indentLevel := 4, createdAt := 0, updatedAt := 9 }
    (by decide) (by decide)).2.1 (Or.inr hdesc)
  rw [show (afterToggle 9 1 sChain)[4]? =
      some { id := 5, text := "e", completed := true, parentId := some 4,
             indentLevel := 4, createdAt := 0, updatedAt := 9 } from by decide,
    Option.map_some', hres]

/-- C3: when toggling the incomplete task `t` (whose parent id is `pid`)
complete leaves every task carrying `parentId = pid` complete after the
cascade-down phase, the immediate parent is forced complete; and the
propagation stops at that single level — every task other than `t`, its
collected descendants, and the parent keeps its `completed` flag, so the
parent's own completion triggers no sibling check for the grandparent
within the same call. -/
theorem c3_toggle_completes_parent_single_level (now : Nat) (s : State)
    (t p : Task) (pid : Nat)
    (hnd : (s.tasks.map Task.id).Nodup)
    (ht : t ∈ s.tasks) (hinc : t.completed = false)
    (hpar : t.parentId = some pid) (hpid0 : pid ≠ 0)
    (hp : p ∈ s.tasks) (hpidp : p.id = pid)
    (hall : ∀ u ∈ cascadeDownPhase now t.id (flipPhase now t.id true s.tasks),
      u.parentId = some pid → u.completed = true) :
    (∀ (i : Nat) (u' : Task), (afterToggle now t.id s)[i]? = some u' →
      u'.id = pid → u'.completed = true) ∧
    (∀ (i : Nat) (u u' : Task), s.tasks[i]? = some u →
      (afterToggle now t.id s)[i]? = some u' →
      u.id ≠ t.id →
      u.id ∉ getSubtaskIds s.tasks (s.tasks.length + 1) t.id →
      u.id ≠ pid → u'.completed = u.completed) := by
  have hflip := flipPhase_eq_map now t.id s.tasks hnd
  have hproj1 : ((s.tasks.map (flipFun now t.id)).map proj) =
      s.tasks.map proj :=
    map_proj_map _ _ (flipFun_proj now t.id)
  have hnd1 : ((s.tasks.map (flipFun now t.id)).map Task.id).Nodup := by
    rw [map_id_of_map_proj _ _ hproj1]
    exact hnd
  have hlen1 : (s.tasks.map (flipFun now t.id)).length = s.tasks.length :=
    List.length_map _ _
  have hsubeq : getSubtaskIds (s.tasks.map (flipFun now t.id))
      ((s.tasks.map (flipFun now t.id)).length + 1) t.id =
      getSubtaskIds s.tasks (s.tasks.length + 1) t.id := by
    rw [hlen1]
    exact getSubtaskIds_congr _ _ hproj1 _ _
  have hcasc : cascadeDownPhase now t.id (s.tasks.map (flipFun now t.id)) =
      (s.tasks.map (flipFun now t.id)).map
        (markFun now (getSubtaskIds s.tasks (s.tasks.length + 1) t.id)) := by
    rw [cascadeDownPhase_eq_map now t.id _ hnd1, hsubeq]
  have hafter : afterToggle now t.id s =
      autoCompleteParentPhase now t.parentId
        ((s.tasks.map (flipFun now t.id)).map
          (markFun now (getSubtaskIds s.tasks (s.tasks.length + 1) t.id))) := by
    rw [afterToggle_incomplete now s t hnd ht hinc, hflip, hcasc]
  have hproj2 : (((s.tasks.map (flipFun now t.id)).map
      (markFun now (getSubtaskIds s.tasks (s.tasks.length + 1) t.id))).map
        proj) = s.tasks.map proj :=
    (map_proj_map _ _ (markFun_proj now _)).trans hproj1
  have hnd2 : ((((s.tasks.map (flipFun now t.id)).map
      (markFun now (getSubtaskIds s.tasks (s.tasks.length + 1) t.id))).map
        Task.id)).Nodup := by
    rw [map_id_of_map_proj _ _ hproj2]
    exact hnd
  rw [hflip, hcasc] at hall
  constructor
  · intro i u' hu' hid
    rw [hafter, hpar] at hu'
    refine acp_completes_parent now pid _ hnd2 hpid0 ?_ hall i u' hu' hid
    rw [map_id_of_map_proj _ _ hproj2, ← hpidp]
    exact List.mem_map_of_mem Task.id hp
  · intro i u u' hu hu' hne hnmem hnpid
    rw [hafter] at hu'
    have hacp := acp_get now t.parentId _ hnd2
    rcases hacp.2 i u' hu' with ⟨w, hw, hrel⟩
    rw [List.getElem?_map, List.getElem?_map, hu, Option.map_some',
      Option.map_some'] at hw
    injection hw with hwval
    have hwid : w.id = u.id := by
      rw [← hwval, markFun_id, flipFun_id]
    have h1 : (u.id == t.id) = false := beq_eq_false_iff_ne.mpr hne
    have h2 : (getSubtaskIds s.tasks
        (s.tasks.length + 1) t.id).contains u.id = false := by
      rw [← Bool.not_eq_true]
      intro hcc
      exact hnmem ((contains_iff_mem _ _).mp hcc)
    have hwc : w.completed = u.completed := by
      rw [← hwval, markFun_completed, flipFun_completed, flipFun_id, h1, h2]
      simp
    rcases hrel with rfl | ⟨rfl, hpid2⟩
    · exact hwc
    · rw [hpar] at hpid2
      injection hpid2 with hpid3
      exact absurd ((hpid3.trans hwid).symm) hnpid

set_option maxRecDepth 10000 in
/-- C3 witness: in the concrete chain grandparent (1) ← parent (2) ←
subtask (3) of `sThree`, toggling the subtask completes the parent, while
the grandparent — whose only child is now complete — stays incomplete: the
cascade-up runs exactly one level. -/
theorem c3_single_level_witness :
    (afterToggle 9 3 sThree)[1]?.map Task.completed = some true ∧
    (afterToggle 9 3 sThree)[0]?.map Task.completed = some false := by
  have h := c3_toggle_completes_parent_single_level 9 sThree
    { id := 3, text := "s", completed := false, parentId := some 2,
      indentLevel := 2, createdAt := 0, updatedAt := 0 }
    { id := 2, text := "p", completed := false, parentId := some 1,
      indentLevel := 1, createdAt := 0, updatedAt := 0 }
    2 (by decide) (by decide) rfl rfl (by decide) (by decide) rfl
    (by decide)
  constructor
  · have hres := h.1 1
      { id := 2, text := "p", completed := true, parentId := some 1,
        indentLevel := 1, createdAt := 0, updatedAt := 9 }
      (by decide) rfl
    rw [show (afterToggle 9 3 sThree)[1]? =
        some { id := 2, text := "p", completed := true, parentId := some 1,
               indentLevel := 1, createdAt := 0, updatedAt := 9 } from
        by decide,
      Option.map_some', hres]
  · have hres := h.2 0
      { id := 1, text := "g", completed := false, parentId := none,
        indentLevel := 0, createdAt := 0, updatedAt := 0 }
      { id := 1, text := "g", completed := false, parentId := none,
        indentLevel := 0, createdAt := 0, updatedAt := 0 }
      (by decide) (by decide) (by decide) (by decide) (by decide)
    rw [show (afterToggle 9 3 sThree)[0]? =
        some { id := 1, text := "g", completed := false, parentId := none,
               indentLevel := 0, createdAt := 0, updatedAt := 0 } from
        by decide,
      Option.map_some', hres]

/-- C1: the [0,3] indent-bound invariant fails on the code.  From the empty
store, five creates with default arguments followed by indenting tasks 2, 3,
4 and 5 leave task 5 at `indentLevel = 4`: the indent guard checks the
mover's own level (`task.indentLevel >= 3`), not the positional
predecessor's, so indenting a level-0 task below a level-3 task yields
level 4.  This theorem evaluates the code on that trace. -/
theorem c1_indent_overflows_bound :
    c1State.tasks.map Task.indentLevel = [0, 1, 2, 3, 4] ∧
    ∃ t ∈ c1State.tasks, 3 < t.indentLevel := by decide

/-- C5: the created task stores no due date.  `createTask` accepts only
`(text, parentId, indentLevel)` — there is no `dueDate` parameter — and the
record it appends carries exactly the seven fields below, with the date
phrase left in the text (the date extractor `DateParser.parse` is never
invoked by the engine).  This theorem evaluates `createTask` on the failing
input "Call dentist tomorrow". -/
theorem c5_create_stores_no_dueDate :
    (createTask 7 "Call dentist tomorrow" none 0 s0).1 =
      some { id := 1, text := "Call dentist tomorrow", completed := false,
             parentId := none, indentLevel := 0, createdAt := 7,
             updatedAt := 7 } := by decide

/-- C9: there is a non-empty, non-whitespace query — here `"("` — on which
`searchTasks` raises a `SyntaxError` (modelled by the `none` result) instead
of returning a list: the term's characters are joined into a regex pattern
without escaping, and the unmatched `(` makes the `RegExp` constructor throw
before any task is examined; the state is left unchanged. -/
theorem c9_search_raises_on_metachar_query :
    (jsTrim "(").isEmpty = false ∧ searchTasks s0 "(" = (none, s0) := by
  decide

/-- C6 counterexample: the claim, quantifying over every query string and
state, fails at two concrete inputs.  (1) For the query `"("` the single
task of `sParen` — whose text `"(x)"` case-insensitively contains the
query — is in no returned list: the search throws during regex
construction.  (2) In the reachable state `sStale` (search "call" over a
non-matching collection, then an import of a same-size payload containing
`tCall`, which keeps the search cache), searching "call" hits the stale
cache entry and returns the empty list even though `tCall` is in the
collection and its text contains the query. -/
theorem c6_counterexample_search_misses_matches :
    (jsIncludes (jsToLower "(x)") (jsTrim (jsToLower "(")) = true ∧
      (searchTasks sParen "(").1 = none) ∧
    (tCall ∈ sStale.tasks ∧
      jsIncludes (jsToLower tCall.text) (jsTrim (jsToLower "call")) = true ∧
      (searchTasks sStale "call").1 = some []) := by decide

-- A successful cache lookup returns a stored entry.

lemma lookupEntry_mem (cache : List (String × List Task)) (key : String)
    (v : List Task) (h : lookupEntry cache key = some v) : (key, v) ∈ cache := by
  induction cache with
  | nil => cases h
  | cons e rest ih =>
    obtain ⟨k, w⟩ := e
    unfold lookupEntry at h
    by_cases hk : (k == key) = true
    · rw [if_pos hk] at h
      cases h
      have hkk : k = key := beq_iff_eq.mp hk
      subst hkk
      exact List.mem_cons_self _ _
    · rw [if_neg hk] at h
      exact List.mem_cons_of_mem _ (ih h)

/-- C6 (amended): whenever `searchTasks` returns a list and every live
search-cache entry keyed to the current collection size was computed from
the current collection (the coherence hypothesis `hcoh` below — it holds
whenever the cache was last filled by searches over the current collection,
but is not guaranteed in every reachable state: `importFromJSON` and
`loadTasks` replace the collection without clearing the cache, so an entry
surviving them can be stale, as the counterexample's second part shows),
the returned list contains every task of the collection whose text
case-insensitively contains the lower-cased, trimmed query. -/
theorem c6_search_superset_of_substring (s : State) (q : String)
    (res : List Task) (s' : State)
    (hcoh : ∀ k v, (k, v) ∈ s.searchCache →
      ∀ term, k = term ++ "-" ++ toString s.tasks.length →
        v = s.tasks.filter (searchMatch term))
    (hrun : searchTasks s q = (some res, s'))
    (t : Task) (htmem : t ∈ s.tasks)
    (hsub : jsIncludes (jsToLower t.text) (jsTrim (jsToLower q)) = true) :
    t ∈ res := by
  unfold searchTasks at hrun
  split at hrun
  · cases hrun
    exact htmem
  · dsimp only at hrun
    split at hrun
    next results heq =>
      cases hrun
      have hmem := lookupEntry_mem _ _ _ heq
      have hv := hcoh _ _ hmem (jsTrim (jsToLower q)) rfl
      subst hv
      exact List.mem_filter.mpr
        ⟨htmem, by unfold searchMatch; rw [hsub]; rfl⟩
    next heq =>
      split at hrun
      · cases hrun
        exact List.mem_filter.mpr
          ⟨htmem, by unfold searchMatch; rw [hsub]; rfl⟩
      · simp at hrun

set_option maxRecDepth 10000 in
/-- C6 witness: for the concrete state `sCall` (empty cache, one task
"Call dentist") and the query "call", the coherence hypothesis holds
vacuously, the search returns a list, and the substring-matching task is a
member of it. -/
theorem c6_search_superset_witness : tCall ∈ [tCall] :=
  c6_search_superset_of_substring sCall "call" [tCall]
    { tasks := [tCall], currentId := 2,
      searchCache := [("call-1", [tCall])] }
    (fun _ _ hv => absurd hv (List.not_mem_nil _))
    (by decide) tCall (by decide) (by decide)

set_option maxRecDepth 100000 in
set_option maxHeartbeats 2000000 in
/-- C7 counterexample: from the initial empty cache, the 101 distinct
queries "0" … "100" (all cache misses) leave the search cache holding 101
entries — the eviction check `size > 100` runs before the insertion, so the
101st insertion is not preceded by an eviction and the claimed bound of 100
is exceeded. -/
theorem c7_counterexample_cache_101 :
    (searchSeq queries101 s0).searchCache.length = 101 := by decide

-- One search step keeps the cache within the steady-state bound of 101.

lemma searchTasks_cache_le (s : State) (q : String)
    (h : s.searchCache.length ≤ 101) :
    ((searchTasks s q).2).searchCache.length ≤ 101 := by
  unfold searchTasks
  split
  · simp
  · dsimp only
    split
    · exact h
    · split
      · dsimp only
        rw [List.length_append]
        by_cases hlen : s.searchCache.length > 100
        · rw [if_pos hlen, List.length_tail]
          simp
          omega
        · rw [if_neg hlen]
          simp
          omega
      · exact h

/-- C7 (amended): after every sequence of `searchTasks` calls the cache
holds at most 101 entries (not 100: the eviction check `size > 100` runs
before the insertion, so the bound the code enforces is 101), and when that
bound is reached a cache-miss search evicts the oldest-inserted entry (the
head) before storing the new one. -/
theorem c7_search_cache_bounded_and_fifo :
    (∀ qs s, s.searchCache.length ≤ 101 →
      (searchSeq qs s).searchCache.length ≤ 101) ∧
    (∀ s q, s.searchCache.length = 101 →
      (jsTrim q).isEmpty = false →
      lookupEntry s.searchCache
        (jsTrim (jsToLower q) ++ "-" ++ toString s.tasks.length) = none →
      fuzzyPatternOk (jsTrim (jsToLower q)) = true →
      ((searchTasks s q).2).searchCache =
        s.searchCache.tail ++
          [(jsTrim (jsToLower q) ++ "-" ++ toString s.tasks.length,
            s.tasks.filter (searchMatch (jsTrim (jsToLower q))))]) := by
  constructor
  · intro qs
    induction qs with
    | nil => exact fun s h => h
    | cons q rest ih => exact fun s h => ih _ (searchTasks_cache_le s q h)
  · intro s q hlen hq hmiss hok
    unfold searchTasks
    rw [if_neg (by rw [hq]; exact Bool.false_ne_true)]
    dsimp only
    rw [hmiss, if_pos hok, if_pos (by omega : s.searchCache.length > 100)]

set_option maxRecDepth 10000 in
/-- C7 witness: the fold bound applied to one query from the initial state,
and the eviction equation applied to a concrete 101-entry cache and the
query "101". -/
theorem c7_search_cache_bounded_witness :
    (searchSeq ["0"] s0).searchCache.length ≤ 101 ∧
    ((searchTasks sBig "101").2).searchCache =
      sBig.searchCache.tail ++ [("101-0", [])] := by
  constructor
  · exact c7_search_cache_bounded_and_fifo.1 ["0"] s0 (by decide)
  · exact c7_search_cache_bounded_and_fifo.2 sBig "101" (by decide)
      (by decide) (by decide) (by decide)

/-- C10 counterexample: reordering with `fromIndex = 2`, `toIndex = 1` on an
empty collection returns `true` and grows the collection by one `undefined`
entry, but the entry sits at clamped position 0, not at `toIndex = 1` — the
collection has no index 1 at all. -/
theorem c10_counterexample_insert_position :
    reorderTasks ([] : List (Option Task)) 2 1 = (true, [none]) ∧
    ((reorderTasks ([] : List (Option Task)) 2 1).2)[1]? = none := by decide

-- Inserting an element at position `n` of a list puts it at `min n length`.

lemma getElem?_insert_at {α : Type} (l : List α) (n : Nat) (x : α) :
    (l.take n ++ [x] ++ l.drop n)[min n l.length]? = some x := by
  rcases le_or_lt n l.length with h | h
  · have hlen : (l.take n).length = n := by
      rw [List.length_take]
      exact min_eq_left h
    have hlt : n < (l.take n ++ [x]).length := by
      rw [List.length_append, hlen]
      simp
    rw [min_eq_left h, List.getElem?_append, if_pos hlt,
      List.getElem?_append, if_neg (by rw [hlen]; omega), hlen]
    simp
  · rw [min_eq_right (le_of_lt h), List.take_of_length_le (le_of_lt h),
      List.drop_eq_nil_of_le (le_of_lt h), List.append_nil,
      List.getElem?_append, if_neg (by omega)]
    simp

/-- C10 (amended): a reorder whose `fromIndex` is at or beyond the
collection's length, with `fromIndex ≠ toIndex`, performs no bounds check:
it returns `true` and grows the collection by one `undefined` entry, which
lands at position `min toIndex length` (the splice insertion index is
clamped to the collection's length, so for `toIndex` beyond the end the
entry sits at the end, not at `toIndex`). -/
theorem c10_reorder_out_of_range (ts : List (Option Task)) (fi ti : Nat)
    (hne : fi ≠ ti) (hoob : ts.length ≤ fi) :
    (reorderTasks ts fi ti).1 = true ∧
    (reorderTasks ts fi ti).2.length = ts.length + 1 ∧
    (reorderTasks ts fi ti).2[min ti ts.length]? = some none := by
  have hdrop : ts.drop fi = [] := List.drop_eq_nil_of_le hoob
  have hdrop1 : ts.drop (fi + 1) = [] :=
    List.drop_eq_nil_of_le (le_trans hoob (Nat.le_succ fi))
  have htake : ts.take fi = ts := List.take_of_length_le hoob
  unfold reorderTasks
  rw [if_neg (by simp [hne])]
  dsimp only
  rw [hdrop, hdrop1, htake, List.append_nil]
  refine ⟨rfl, ?_, ?_⟩
  · simp [List.length_append, List.length_take, List.length_drop]
    omega
  · exact getElem?_insert_at ts ti none

/-- C10 amended-claim witness: the out-of-range reorder theorem applied to
the empty collection with `fromIndex = 1`, `toIndex = 0`. -/
theorem c10_reorder_out_of_range_witness :
    (reorderTasks ([] : List (Option Task)) 1 0).1 = true ∧
    (reorderTasks ([] : List (Option Task)) 1 0).2.length =
      ([] : List (Option Task)).length + 1 ∧
    (reorderTasks ([] : List (Option Task)) 1 0).2[min 0
      ([] : List (Option Task)).length]? = some none :=
  c10_reorder_out_of_range [] 1 0 (by decide) (by decide)

/-- C8: a persistence input that fails to parse (`none`) or parses to a
payload without an array under `tasks` makes `importFromJSON` report `false`
with the state — collection, id counter and caches — exactly as before; and
whenever `loadTasks` reports `false` the state is likewise untouched.  The
JS exceptions these paths raise are caught inside the engine (modelled by
the operations being total functions into `Bool × State`). -/
theorem c8_persistence_failure_leaves_state :
    (∀ s, importFromJSON none s = (false, s)) ∧
    (∀ s j, hasTasksArray j = false → importFromJSON (some j) s = (false, s)) ∧
    (∀ p s, (loadTasks p s).1 = false → (loadTasks p s).2 = s) := by
  refine ⟨fun s => rfl, fun s j h => ?_, fun p s h => ?_⟩
  · unfold importFromJSON
    split
    next fields heq2 =>
      injection heq2 with hj
      subst hj
      split
      next l heq =>
        exfalso
        unfold hasTasksArray at h
        dsimp only at h
        rw [heq] at h
        exact Bool.noConfusion h
      next heq => rfl
    next => rfl
  · rcases p with _ | j
    · rfl
    · cases j with
      | null => rfl
      | bool b => exact absurd h (by simp [loadTasks])
      | num n => exact absurd h (by simp [loadTasks])
      | str s1 => exact absurd h (by simp [loadTasks])
      | arr l => exact absurd h (by simp [loadTasks])
      | obj fields =>
        unfold loadTasks at h ⊢
        dsimp only at h ⊢
        rcases hjl : jlookup fields "tasks" with _ | jv
        · rw [hjl] at h
          simp at h
        · rw [hjl] at h
          cases jv with
          | arr l => simp at h
          | null => simp [jsTruthy] at h
          | obj f2 =>
            dsimp only [jsTruthy] at h ⊢
            rfl
          | bool b =>
            cases b with
            | true =>
              dsimp only [jsTruthy] at h ⊢
              rfl
            | false => simp [jsTruthy] at h
          | num n =>
            by_cases hn : (n != 0) = true
            · dsimp only [jsTruthy] at h ⊢
              rw [if_pos hn]
            · dsimp only [jsTruthy] at h ⊢
              rw [if_neg hn] at h
              simp at h
          | str s2 =>
            by_cases hs : (!s2.isEmpty) = true
            · dsimp only [jsTruthy] at h ⊢
              rw [if_pos hs]
            · dsimp only [jsTruthy] at h ⊢
              rw [if_neg hs] at h
              simp at h

/-- C8 witness: a parse failure, a parsed payload with no `tasks` array, and
a load of the parsed record `null` all report `false` and leave the concrete
initial state untouched. -/
theorem c8_persistence_failure_witness :
    importFromJSON none s0 = (false, s0) ∧
    importFromJSON (some (Json.num 5)) s0 = (false, s0) ∧
    (loadTasks (some Json.null) s0).2 = s0 :=
  ⟨c8_persistence_failure_leaves_state.1 s0,
   c8_persistence_failure_leaves_state.2.1 s0 (Json.num 5) rfl,
   c8_persistence_failure_leaves_state.2.2 (some Json.null) s0 rfl⟩

/-- C4: importing the export of any state succeeds, reproduces the task
collection field for field, and recomputes the id counter as the maximum of
the imported ids and 0, plus one — so it exceeds every imported id.
(`JSON.parse ∘ JSON.stringify` is the identity on the export's JSON tree,
so the import is fed the export's tree directly.) -/
theorem c4_export_import_roundtrip (s : State) (exportedAt : String) :
    (importFromJSON (some (exportToJSON s exportedAt)) s).1 = true ∧
    (importFromJSON (some (exportToJSON s exportedAt)) s).2.tasks = s.tasks ∧
    (importFromJSON (some (exportToJSON s exportedAt)) s).2.currentId =
      (s.tasks.map Task.id).foldl max 0 + 1 ∧
    ∀ t ∈ s.tasks,
      t.id + 1 ≤ (importFromJSON (some (exportToJSON s exportedAt)) s).2.currentId := by
  have hred : importFromJSON (some (exportToJSON s exportedAt)) s =
      (true, { s with tasks := s.tasks,
                      currentId := (s.tasks.map Task.id).foldl max 0 + 1 }) := by
    unfold importFromJSON exportToJSON
    dsimp only
    rw [show jlookup
        [("tasks", Json.arr (s.tasks.map taskToJson)),
         ("exportedAt", Json.str exportedAt),
         ("version", Json.str "1.0")] "tasks" =
        some (Json.arr (s.tasks.map taskToJson)) from rfl]
    dsimp only
    rw [map_jsonToTask_taskToJson]
  refine ⟨by rw [hred], by rw [hred], by rw [hred], fun t ht => ?_⟩
  rw [hred]
  exact Nat.add_le_add_right
    (mem_le_foldl_max _ _ (List.mem_map_of_mem Task.id ht) 0) 1

end TaskFlow
